import Mathlib

/-!
Verification of the incremental dataflow core (Z-set algebra, flat join,
incremental join, and the `JoinTrace` operator) against its specification.

The embedding follows `src/operator/join.rs` and `src/circuit/operator/map2.rs`:

* An indexed Z-set `IZ<K, V, W>` (with weight type `W` = machine `isize`,
  modelled as `Int`) is embedded as a list of key entries, each carrying the
  list of (value, weight) pairs for that key.  The batch invariant of the
  source (entries sorted and deduplicated by key) is the `sortedKeys`
  predicate below.
* A Z-set value (the result of `Z::from_tuples`) is identified with its
  key-to-weight mapping: `fromTuples` sums the weights of all tuples carrying
  a given key.  Two Z-sets are equal exactly when these mappings agree, which
  matches the documented Z-set equality (zero-weight keys are absent).
* Cursor traversal with `seek_key` / `step_key` / `step_val` / `rewind_vals`
  over a sorted batch is embedded as structural recursion over the sorted
  entry lists; `seek_key k` is `dropWhile (key < k)`.
-/

set_option linter.unusedSectionVars false

namespace DBSP

/-- An indexed Z-set batch: entries of key with (value, weight) pairs,
mirroring the `BatchReader` key/value/weight view used by `Join::eval`. -/
abbrev IZ (K V : Type) := List (K × List (V × Int))

/-- The key order invariant of batches: entries strictly sorted by key. -/
def sortedKeys {K V : Type} [LT K] (l : IZ K V) : Prop :=
  l.Pairwise (fun a b => a.1 < b.1)

instance {K V : Type} [LinearOrder K] (l : IZ K V) : Decidable (sortedKeys l) :=
  List.instDecidablePairwise l

/-- Weight of key `x` in the Z-set built by `Z::from_tuples` from a tuple
list: coalesces duplicate keys by summing weights, so zero sums denote an
absent key.  This is the semantic (key to weight) reading of a Z-set. -/
def fromTuples {κ : Type} [DecidableEq κ] (l : List (κ × Int)) (x : κ) : Int :=
  ((l.filter (fun p => p.1 = x)).map Prod.snd).sum

/-- Cursor `seek_key k`: advance to the first entry whose key is at least
`k` (binary search in the source; positionally equivalent `dropWhile`). -/
def seekKey {K V : Type} [LinearOrder K] (k : K) (l : List (K × V)) : List (K × V) :=
  l.dropWhile (fun p => p.1 < k)

/-- The inner double loop of `Join::eval` on one equal key: for each value
of the first input and each value of the second, emit the joined key with
the product weight (the `()` value of the output tuple is dropped, as the
output Z-set is read through its weight mapping). -/
def crossVals {V1 V2 κ : Type} (fk : V1 → V2 → κ)
    (vs1 : List (V1 × Int)) (vs2 : List (V2 × Int)) : List (κ × Int) :=
  vs1.flatMap fun p1 => vs2.map fun p2 => (fk p1.1 p2.1, p1.2 * p2.2)

/-- The dual-cursor merge loop of `Join::eval`: advance the cursor with the
smaller key via `seek_key`; on equal keys cross-product the value streams
and step both cursors.  Returns the collected output tuple batch. -/
def joinTuples {K V1 V2 κ : Type} [LinearOrder K] (f : K → V1 → V2 → κ) :
    IZ K V1 → IZ K V2 → List (κ × Int)
  | [], _ => []
  | _ :: _, [] => []
  | (k1, vs1) :: r1, (k2, vs2) :: r2 =>
    if k1 < k2 then joinTuples f (seekKey k2 r1) ((k2, vs2) :: r2)
    else if k2 < k1 then joinTuples f ((k1, vs1) :: r1) (seekKey k1 r2)
    else crossVals (f k1) vs1 vs2 ++ joinTuples f r1 r2
  termination_by l1 l2 => l1.length + l2.length
  decreasing_by
  · have h : (List.dropWhile (fun p => p.1 < k2) r1).length ≤ r1.length :=
      List.Sublist.length_le (List.dropWhile_sublist _)
    simp only [seekKey, List.length_cons]; omega
  · have h : (List.dropWhile (fun p => p.1 < k1) r2).length ≤ r2.length :=
      List.Sublist.length_le (List.dropWhile_sublist _)
    simp only [seekKey, List.length_cons]; omega
  · simp only [List.length_cons]; omega

/-- `Join::eval` followed by `Z::from_tuples`: the weight the output Z-set
assigns to key `x`. -/
def joinOutput {K V1 V2 κ : Type} [LinearOrder K] [DecidableEq κ]
    (f : K → V1 → V2 → κ) (A : IZ K V1) (B : IZ K V2) (x : κ) : Int :=
  fromTuples (joinTuples f A B) x

/-- Contribution of one entry of the first input under the declarative join
reading: pair it with every entry of the second input that has the same key. -/
def entrySpec {K V1 V2 κ : Type} [DecidableEq K] (f : K → V1 → V2 → κ)
    (B : IZ K V2) (p : K × List (V1 × Int)) : List (κ × Int) :=
  B.flatMap fun q => if q.1 = p.1 then crossVals (f p.1) p.2 q.2 else []

/-- Declarative reading of the join output, written after the specification:
one tuple `(f k v1 v2, w1 * w2)` for every matching triple `(k, v1, v2)`
across the two inputs, keys present in only one input contributing nothing. -/
def joinSpecTuples {K V1 V2 κ : Type} [DecidableEq K] (f : K → V1 → V2 → κ)
    (A : IZ K V1) (B : IZ K V2) : List (κ × Int) :=
  A.flatMap (entrySpec f B)

/-- Modelled from the spec: `plus` on the value Z-set inside one key group,
"pointwise weight arithmetic with zero-elimination" (the Z-set algebra
module itself is outside the inspected sources).  Sorted merge of the two
value lists, summing weights of equal values and dropping zero sums. -/
def valPlus {V : Type} [LinearOrder V] : List (V × Int) → List (V × Int) → List (V × Int)
  | [], l => l
  | p :: r, [] => p :: r
  | (v1, w1) :: r1, (v2, w2) :: r2 =>
    if v1 < v2 then (v1, w1) :: valPlus r1 ((v2, w2) :: r2)
    else if v2 < v1 then (v2, w2) :: valPlus ((v1, w1) :: r1) r2
    else if w1 + w2 = 0 then valPlus r1 r2
    else (v1, w1 + w2) :: valPlus r1 r2
  termination_by l1 l2 => l1.length + l2.length

/-- Modelled from the spec: `plus` of indexed Z-sets, "pointwise weight
arithmetic with zero-elimination".  Sorted merge by key; equal keys add
their value Z-sets, and a key whose value Z-set becomes empty is removed. -/
def izPlus {K V : Type} [LinearOrder K] [LinearOrder V] : IZ K V → IZ K V → IZ K V
  | [], l => l
  | p :: r, [] => p :: r
  | (k1, vs1) :: r1, (k2, vs2) :: r2 =>
    if k1 < k2 then (k1, vs1) :: izPlus r1 ((k2, vs2) :: r2)
    else if k2 < k1 then (k2, vs2) :: izPlus ((k1, vs1) :: r1) r2
    else if (valPlus vs1 vs2).isEmpty then izPlus r1 r2
    else (k1, valPlus vs1 vs2) :: izPlus r1 r2
  termination_by l1 l2 => l1.length + l2.length

/-- Sum of an integer-valued function over a list. -/
def lsum {α : Type} (l : List α) (φ : α → Int) : Int := (l.map φ).sum

/-- Weighted sum of a function over a value Z-set. -/
def wsum {V : Type} (l : List (V × Int)) (g : V → Int) : Int :=
  lsum l (fun p => p.2 * g p.1)

/-- Weighted sum of a function over an indexed Z-set. -/
def izwsum {K V : Type} (A : IZ K V) (h : K → V → Int) : Int :=
  lsum A (fun p => wsum p.2 (h p.1))

/-- Modelled from the spec: `integrate_trace`, the "view whose contents are
the cumulative sum of all inputs seen so far" (including the current step,
as required by the incremental-join identity; the trace module is outside
the inspected sources). -/
def integ {K V : Type} [LinearOrder K] [LinearOrder V] (s : ℕ → IZ K V) : ℕ → IZ K V
  | 0 => s 0
  | n + 1 => izPlus (integ s n) (s (n + 1))

/-- Modelled from the spec: `delay_trace` of the integral, "the trace as it
was immediately after the previous step completed" — empty at the first
step, otherwise the integral up to the previous step. -/
def delayInteg {K V : Type} [LinearOrder K] [LinearOrder V] (s : ℕ → IZ K V) : ℕ → IZ K V
  | 0 => []
  | n + 1 => integ s n

/-- One step of `Stream::join_incremental`:
`delay_trace(integrate_trace(a)).join(b, f) + a.join(integrate_trace(b), f)`,
read pointwise on output keys. -/
def joinIncOut {K V1 V2 κ : Type} [LinearOrder K] [DecidableEq κ]
    [LinearOrder V1] [LinearOrder V2] (f : K → V1 → V2 → κ)
    (a : ℕ → IZ K V1) (b : ℕ → IZ K V2) (n : ℕ) (x : κ) : Int :=
  joinOutput f (delayInteg a n) (b n) x + joinOutput f (a n) (integ b n) x

/-- Cumulative sum over steps of a stream of output weights. -/
def sumOut {κ : Type} (out : ℕ → κ → Int) : ℕ → κ → Int
  | 0, x => out 0 x
  | n + 1, x => sumOut out n x + out (n + 1) x

/-- Sum of an integer family over ticks `0..n`. -/
def sumUpTo (g : ℕ → Int) : ℕ → Int
  | 0 => g 0
  | m + 1 => sumUpTo g m + g (m + 1)

/-- Modelled from the spec: total contribution of the `left` operand of
`join_trace` at tick `n` — the current delta of `a` joined (by `JoinTrace`)
against the trace of `b`, which holds the cumulative content of `b` as of
the current tick; timestamps are abstracted to observation ticks and the
output is read as its total weight. -/
def leftOut {K V1 V2 κ : Type} [LinearOrder K] [DecidableEq κ]
    [LinearOrder V2] (f : K → V1 → V2 → κ) (a : ℕ → IZ K V1)
    (b : ℕ → IZ K V2) (n : ℕ) (x : κ) : Int :=
  joinOutput f (a n) (integ b n) x

/-- Modelled from the spec: total contribution of the `right` operand of
`join_trace` at tick `n` — the current delta of `b` joined against the
one-tick-delayed trace of `a`, with the argument-flipped join function. -/
def rightOut {K V1 V2 κ : Type} [LinearOrder K] [DecidableEq κ]
    [LinearOrder V1] (f : K → V1 → V2 → κ) (a : ℕ → IZ K V1)
    (b : ℕ → IZ K V2) (n : ℕ) (x : κ) : Int :=
  joinOutput (fun k v2 v1 => f k v1 v2) (b n) (delayInteg a n) x

section ScenarioData

/-- Step-1 input `A` of the specification's seed scenarios. -/
def exA : IZ ℕ String := [(1, [("a", 1), ("b", 2)]), (2, [("c", 3), ("d", 4)])]

/-- Step-1 input `B` of the specification's seed scenarios. -/
def exB : IZ ℕ String := [(2, [("g", 3), ("h", 4)])]

/-- Step-2 delta of the first input. -/
def exDA : IZ ℕ String := [(1, [("a", 1)])]

/-- Step-2 delta of the second input. -/
def exDB : IZ ℕ String := [(1, [("b", 1)])]

/-- First input stream of the two-step scenario. -/
def exa : ℕ → IZ ℕ String := fun n => if n = 0 then exA else if n = 1 then exDA else []

/-- Second input stream of the two-step scenario. -/
def exb : ℕ → IZ ℕ String := fun n => if n = 0 then exB else if n = 1 then exDB else []

/-- Join function of the seed scenarios: `f(k, s1, s2) = (k, s1 + " " + s2)`. -/
def exf : ℕ → String → String → ℕ × String := fun k s1 s2 => (k, s1 ++ " " ++ s2)

end ScenarioData

section SplitScenario

/-- First stream of the diagonal scenario: one tuple at tick 0. -/
def caA : ℕ → IZ ℕ ℕ := fun n => if n = 0 then [(1, [(10, 1)])] else []

/-- Second stream of the diagonal scenario: one tuple at tick 0. -/
def caB : ℕ → IZ ℕ ℕ := fun n => if n = 0 then [(1, [(20, 1)])] else []

/-- Join function of the diagonal scenario. -/
def caF : ℕ → ℕ → ℕ → ℕ × ℕ := fun _ v1 v2 => (v1, v2)

end SplitScenario

section JoinTraceDefs

/-- The timestamp interface used by `JoinTrace` (`Timestamp` + `Lattice` in
the source): least upper bound `join`, `advance` by one tick at a scope,
`epoch_end` at a scope, the lattice partial order `less_equal`, and the
total comparison used for sorting output tuples by time. -/
structure TimeOps (T : Type) where
  join : T → T → T
  advance : T → Nat → T
  epochEnd : T → Nat → T
  lessEq : T → T → Bool
  ordLe : T → T → Bool

/-- Mutable state of the `JoinTrace` operator: the current logical time,
the pending output batchers indexed by future timestamps (the `HashMap` is
embedded as an association list with distinct keys), and the two
fixed-point detection flags. -/
structure JTState (T κ : Type) where
  time : T
  output_batchers : List (T × List (κ × Int))
  empty_input : Bool
  empty_output : Bool

/-- `HashMap` lookup on the association-list embedding. -/
def alLookup {T β : Type} [DecidableEq T] (t : T) : List (T × β) → Option β
  | [] => none
  | (t', b) :: r => if t' = t then some b else alLookup t r

/-- Content of the batcher at time `t` (empty when absent). -/
def lookupD {T κ : Type} [DecidableEq T] (t : T)
    (m : List (T × List (κ × Int))) : List (κ × Int) :=
  (alLookup t m).getD []

/-- `entry(t).or_insert_with(Batcher::new).push_batch(run)`: append a run of
tuples to the batcher at time `t`, creating it if absent. -/
def alPush {T κ : Type} [DecidableEq T] (t : T) (run : List (κ × Int)) :
    List (T × List (κ × Int)) → List (T × List (κ × Int))
  | [] => [(t, run)]
  | (t', b) :: r => if t' = t then (t', b ++ run) :: r else (t', b) :: alPush t run r

/-- `HashMap::remove`: the removed value (if any) and the remaining map. -/
def alRemove {T β : Type} [DecidableEq T] (t : T) :
    List (T × β) → Option β × List (T × β)
  | [] => (none, [])
  | (t', b) :: r =>
    if t' = t then (some b, r)
    else
      let res := alRemove t r
      (res.1, (t', b) :: res.2)

/-- Split a tuple list into maximal runs sharing a timestamp, mirroring the
`partition_point` loop of `JoinTrace::eval` over the time-sorted buffer. -/
def groupRuns {T β : Type} [DecidableEq T] : List (T × β) → List (T × List β)
  | [] => []
  | (t, x) :: rest =>
    (t, x :: (rest.takeWhile (fun p => p.1 = t)).map Prod.snd) ::
      groupRuns (rest.dropWhile (fun p => p.1 = t))
  termination_by l => l.length
  decreasing_by
  · simp only [List.length_cons]
    exact Nat.lt_succ_of_le (List.Sublist.length_le (List.dropWhile_sublist _))

/-- A trace's logical content as read through its cursor: per key, per
value, the list of `(time, weight)` pairs folded by `map_times`. -/
abbrev TraceC (K V T : Type) := List (K × List (V × List (T × Int)))

/-- The dual-cursor merge loop of `JoinTrace::eval`: the same key merge
discipline as `Join::eval`, but for each match `map_times` emits one tuple
`(t2.join(self.time), (f k v1 v2, w1 * w2))` per `(t2, w2)` time entry. -/
def genTuples {K V1 V2 T κ : Type} [LinearOrder K] (ops : TimeOps T) (f : K → V1 → V2 → κ)
    (time : T) : IZ K V1 → TraceC K V2 T → List (T × (κ × Int))
  | [], _ => []
  | _ :: _, [] => []
  | (k1, vs1) :: r1, (k2, vs2) :: r2 =>
    if k1 < k2 then genTuples ops f time (seekKey k2 r1) ((k2, vs2) :: r2)
    else if k2 < k1 then genTuples ops f time ((k1, vs1) :: r1) (seekKey k1 r2)
    else
      (vs1.flatMap fun p1 => vs2.flatMap fun p2 =>
        p2.2.map fun tw => (ops.join tw.1 time, (f k1 p1.1 p2.1, p1.2 * tw.2)))
        ++ genTuples ops f time r1 r2
  termination_by l1 l2 => l1.length + l2.length
  decreasing_by
  · have h : (List.dropWhile (fun p => p.1 < k2) r1).length ≤ r1.length :=
      List.Sublist.length_le (List.dropWhile_sublist _)
    simp only [seekKey, List.length_cons]; omega
  · have h : (List.dropWhile (fun p => p.1 < k1) r2).length ≤ r2.length :=
      List.Sublist.length_le (List.dropWhile_sublist _)
    simp only [seekKey, List.length_cons]; omega
  · simp only [List.length_cons]; omega

/-- One coalescing step of the batcher's `seal`. -/
def addTuple {κ : Type} [DecidableEq κ] : List (κ × Int) → κ × Int → List (κ × Int)
  | [], p => [p]
  | q :: r, p => if q.1 = p.1 then (q.1, q.2 + p.2) :: r else q :: addTuple r p

/-- `Batcher::seal` coalescing: sum weights of equal keys, drop zeros. -/
def consolidate {κ : Type} [DecidableEq κ] (l : List (κ × Int)) : List (κ × Int) :=
  (l.foldl addTuple []).filter (fun p => p.2 ≠ 0)

/-- Emptiness of a sealed batch (no keys left after coalescing). -/
def isEmptyBatch {κ : Type} [DecidableEq κ] (l : List (κ × Int)) : Bool :=
  (consolidate l).isEmpty

/-- `JoinTrace::eval`: set `empty_input`; run the merge producing output
tuples; sort them by timestamp; push each maximal run of one timestamp to
that time's batcher; remove (or synthesize) the batcher for `self.time`,
seal it as the returned batch; advance `self.time` by `advance(0)`; set
`empty_output` from the returned batch. -/
def evalJT {K V1 V2 T κ : Type} [LinearOrder K] [DecidableEq T] [DecidableEq κ]
    (ops : TimeOps T) (f : K → V1 → V2 → κ) (st : JTState T κ)
    (index : IZ K V1) (trace : TraceC K V2 T) : JTState T κ × List (κ × Int) :=
  let tuples := genTuples ops f st.time index trace
  let sorted := tuples.mergeSort (fun p q => ops.ordLe p.1 q.1)
  let groups := groupRuns sorted
  let bs := groups.foldl (fun m g => alPush g.1 g.2 m) st.output_batchers
  let rem := alRemove st.time bs
  let result := rem.1.getD []
  ({ time := ops.advance st.time 0,
     output_batchers := rem.2,
     empty_input := index.isEmpty,
     empty_output := isEmptyBatch result }, result)

/-- `JoinTrace::clock_start`: at scope 0 clear both emptiness flags; other
scopes leave the state untouched. -/
def clockStart {T κ : Type} (st : JTState T κ) (scope : Nat) : JTState T κ :=
  if scope = 0 then { st with empty_input := false, empty_output := false } else st

/-- `JoinTrace::clock_end`: advance `self.time` at `scope + 1`. -/
def clockEnd {T κ : Type} (ops : TimeOps T) (st : JTState T κ) (scope : Nat) : JTState T κ :=
  { st with time := ops.advance st.time (scope + 1) }

/-- The `debug_assert!` guarding `JoinTrace::clock_end`: no pending batcher
has a time `less_equal` the current `self.time`. -/
def clockEndAssert {T κ : Type} (ops : TimeOps T) (st : JTState T κ) : Bool :=
  st.output_batchers.all (fun p => ! ops.lessEq p.1 st.time)

/-- `JoinTrace::fixedpoint`: empty input and output flags hold and no
pending batcher lies at or before the end of the scope's clock epoch. -/
def fixedpointJT {T κ : Type} (ops : TimeOps T) (st : JTState T κ) (scope : Nat) : Bool :=
  st.empty_input && st.empty_output &&
    st.output_batchers.all (fun p => ! ops.lessEq p.1 (ops.epochEnd st.time scope))

end JoinTraceDefs

section NatTime

/-- A concrete flat timestamp instance over `ℕ` (join is maximum, advance
increments, the epoch never ends early), used to exercise the operator. -/
def natOps : TimeOps ℕ where
  join := max
  advance := fun t _ => t + 1
  epochEnd := fun t _ => t
  lessEq := fun a b => decide (a ≤ b)
  ordLe := fun a b => decide (a ≤ b)

end NatTime

section Map2Def

/-- The `Map2` operator of `circuit/operator/map2.rs`: a binary operator
holding a user-provided function. -/
structure Map2 (A B C : Type) where
  map : A → B → C

/-- `Map2::eval`: apply the stored function to the pair of inputs. -/
def Map2.eval {A B C : Type} (m : Map2 A B C) (i1 : A) (i2 : B) : C :=
  m.map i1 i2

/-- Modelled from the spec: the `Operator` implementation of `Map2` in the
inspected sources predates the `fixedpoint` protocol (it has only
`stream_start`/`stream_end`), so its fixed-point answer is taken from the
spec: "Map/Map2 ... Always fixedpoint = true". -/
def Map2.atFixedpoint {A B C : Type} (m : Map2 A B C) (scope : Nat) : Bool :=
  true

end Map2Def

section FromTuplesLemmas

variable {κ : Type} [DecidableEq κ]

theorem fromTuples_nil (x : κ) : fromTuples [] x = 0 := rfl

theorem fromTuples_cons (k : κ) (w : Int) (l : List (κ × Int)) (x : κ) :
    fromTuples ((k, w) :: l) x = (if k = x then w else 0) + fromTuples l x := by
  by_cases h : k = x <;> simp [fromTuples, List.filter_cons, h]

theorem fromTuples_append (l1 l2 : List (κ × Int)) (x : κ) :
    fromTuples (l1 ++ l2) x = fromTuples l1 x + fromTuples l2 x := by
  simp [fromTuples, List.filter_append]

theorem fromTuples_perm {l1 l2 : List (κ × Int)} (h : l1.Perm l2) (x : κ) :
    fromTuples l1 x = fromTuples l2 x :=
  List.Perm.sum_eq (List.Perm.map _ (List.Perm.filter _ h))

theorem fromTuples_flatMap {α : Type} (h : α → List (κ × Int)) (l : List α) (x : κ) :
    fromTuples (l.flatMap h) x = (l.map (fun a => fromTuples (h a) x)).sum := by
  induction l with
  | nil => rfl
  | cons a t ih => simp [List.flatMap_cons, fromTuples_append, ih]

end FromTuplesLemmas

section JoinLemmas

variable {K V1 V2 κ : Type} [LinearOrder K] [DecidableEq κ]

theorem flatMap_congr_mem {α β : Type} {l : List α} {f g : α → List β}
    (h : ∀ a ∈ l, f a = g a) : l.flatMap f = l.flatMap g := by
  induction l with
  | nil => rfl
  | cons a t ih =>
    simp only [List.flatMap_cons, h a (List.mem_cons_self a t)]
    rw [ih (fun b hb => h b (List.mem_cons_of_mem a hb))]

theorem sortedKeys_cons_iff {V : Type} (p : K × List (V × Int)) (l : IZ K V) :
    sortedKeys (p :: l) ↔ (∀ q ∈ l, p.1 < q.1) ∧ sortedKeys l := by
  simp [sortedKeys, List.pairwise_cons]

theorem sortedKeys_seekKey {V : Type} (k : K) {l : IZ K V} (h : sortedKeys l) :
    sortedKeys (seekKey k l) :=
  List.Pairwise.sublist (List.dropWhile_sublist _) h

theorem mem_seekKey_ge {V : Type} (k : K) {l : IZ K V} (h : sortedKeys l)
    {q : K × List (V × Int)} (hq : q ∈ seekKey k l) : k ≤ q.1 := by
  induction l with
  | nil => cases hq
  | cons p t ih =>
    rw [seekKey, List.dropWhile_cons] at hq
    by_cases hp : p.1 < k
    · simp only [hp, decide_eq_true_eq, if_pos] at hq
      exact ih ((sortedKeys_cons_iff p t).mp h).2 hq
    · rw [if_neg (by simpa using hp)] at hq
      rcases List.mem_cons.mp hq with hq | hq
      · subst hq; exact le_of_not_lt hp
      · exact le_of_lt (lt_of_le_of_lt (le_of_not_lt hp) (((sortedKeys_cons_iff p t).mp h).1 q hq))

theorem entrySpec_eq_nil (f : K → V1 → V2 → κ) {B : IZ K V2}
    {p : K × List (V1 × Int)} (h : ∀ q ∈ B, q.1 ≠ p.1) : entrySpec f B p = [] := by
  induction B with
  | nil => rfl
  | cons q t ih =>
    simp only [entrySpec, List.flatMap_cons, h q (List.mem_cons_self q t), if_false,
      List.nil_append]
    exact ih (fun r hr => h r (List.mem_cons_of_mem q hr))

theorem joinSpecTuples_cons_left (f : K → V1 → V2 → κ) (p : K × List (V1 × Int))
    (A : IZ K V1) (B : IZ K V2) :
    joinSpecTuples f (p :: A) B = entrySpec f B p ++ joinSpecTuples f A B := by
  simp [joinSpecTuples, List.flatMap_cons]

theorem joinSpecTuples_nil_right (f : K → V1 → V2 → κ) (A : IZ K V1) :
    joinSpecTuples f A [] = [] := by
  simp [joinSpecTuples, entrySpec]

/-- Entries of the first input whose key lies strictly below every key of the
second input are invisible to the declarative join. -/
theorem joinSpecTuples_drop_left (f : K → V1 → V2 → κ) {A0 : IZ K V1} (A1 : IZ K V1)
    {B : IZ K V2} (h : ∀ p ∈ A0, ∀ q ∈ B, q.1 ≠ p.1) :
    joinSpecTuples f (A0 ++ A1) B = joinSpecTuples f A1 B := by
  simp only [joinSpecTuples, List.flatMap_append]
  have : A0.flatMap (entrySpec f B) = A0.flatMap (fun _ => []) :=
    flatMap_congr_mem (fun p hp => entrySpec_eq_nil f (h p hp))
  simp [this]

/-- Entries of the second input whose key matches no key of the first input
are invisible to the declarative join. -/
theorem joinSpecTuples_drop_right (f : K → V1 → V2 → κ) {A : IZ K V1}
    {B0 : IZ K V2} (B1 : IZ K V2) (h : ∀ q ∈ B0, ∀ p ∈ A, q.1 ≠ p.1) :
    joinSpecTuples f A (B0 ++ B1) = joinSpecTuples f A B1 := by
  refine flatMap_congr_mem (fun p hp => ?_)
  simp only [entrySpec, List.flatMap_append]
  have : B0.flatMap (fun q => if q.1 = p.1 then crossVals (f p.1) p.2 q.2 else []) =
      B0.flatMap (fun _ => []) :=
    flatMap_congr_mem (fun q hq => by simp [h q hq p hp])
  simp [this]

theorem entrySpec_cons (f : K → V1 → V2 → κ) (q : K × List (V2 × Int)) (B : IZ K V2)
    (p : K × List (V1 × Int)) :
    entrySpec f (q :: B) p =
      (if q.1 = p.1 then crossVals (f p.1) p.2 q.2 else []) ++ entrySpec f B p := by
  simp [entrySpec, List.flatMap_cons]

/-- Correctness of the dual-cursor merge of `Join::eval` against the
declarative join reading, for inputs satisfying the batch key order
invariant: the two tuple batches induce the same Z-set. -/
theorem joinTuples_weight (f : K → V1 → V2 → κ) :
    ∀ (A : IZ K V1) (B : IZ K V2), sortedKeys A → sortedKeys B →
      ∀ x, fromTuples (joinTuples f A B) x = fromTuples (joinSpecTuples f A B) x := by
  intro A B
  induction A, B using joinTuples.induct f with
  | case1 B =>
    intro _ _ x
    simp [joinTuples, joinSpecTuples, entrySpec]
  | case2 p A =>
    intro _ _ x
    simp [joinTuples, joinSpecTuples_nil_right]
  | case3 k1 vs1 r1 k2 vs2 r2 h ih =>
    intro hA hB x
    have hA1 : sortedKeys r1 := ((sortedKeys_cons_iff _ _).mp hA).2
    have hkeep : sortedKeys (seekKey k2 r1) := sortedKeys_seekKey k2 hA1
    have hsplit : ((k1, vs1) :: r1 : IZ K V1) =
        ((k1, vs1) :: r1.takeWhile (fun p => p.1 < k2)) ++ seekKey k2 r1 := by
      rw [seekKey, List.cons_append, List.takeWhile_append_dropWhile]
    have hBge : ∀ q ∈ (k2, vs2) :: r2, k2 ≤ q.1 := by
      intro q hq
      rcases List.mem_cons.mp hq with hq | hq
      · rw [hq]
      · exact le_of_lt (((sortedKeys_cons_iff _ _).mp hB).1 q hq)
    have hdrop : ∀ p ∈ (k1, vs1) :: r1.takeWhile (fun p => p.1 < k2),
        ∀ q ∈ (k2, vs2) :: r2, q.1 ≠ p.1 := by
      intro p hp q hq
      have hplt : p.1 < k2 := by
        rcases List.mem_cons.mp hp with hp | hp
        · rw [hp]; exact h
        · simpa using List.mem_takeWhile_imp hp
      exact ne_of_gt (lt_of_lt_of_le hplt (hBge q hq))
    rw [joinTuples]
    rw [if_pos h]
    rw [ih hkeep hB x, hsplit, joinSpecTuples_drop_left f _ hdrop]
  | case4 k1 vs1 r1 k2 vs2 r2 h1 h2 ih =>
    intro hA hB x
    have hB1 : sortedKeys r2 := ((sortedKeys_cons_iff _ _).mp hB).2
    have hkeep : sortedKeys (seekKey k1 r2) := sortedKeys_seekKey k1 hB1
    have hsplit : ((k2, vs2) :: r2 : IZ K V2) =
        ((k2, vs2) :: r2.takeWhile (fun p => p.1 < k1)) ++ seekKey k1 r2 := by
      rw [seekKey, List.cons_append, List.takeWhile_append_dropWhile]
    have hAge : ∀ p ∈ (k1, vs1) :: r1, k1 ≤ p.1 := by
      intro p hp
      rcases List.mem_cons.mp hp with hp | hp
      · rw [hp]
      · exact le_of_lt (((sortedKeys_cons_iff _ _).mp hA).1 p hp)
    have hdrop : ∀ q ∈ (k2, vs2) :: r2.takeWhile (fun p => p.1 < k1),
        ∀ p ∈ (k1, vs1) :: r1, q.1 ≠ p.1 := by
      intro q hq p hp
      have hqlt : q.1 < k1 := by
        rcases List.mem_cons.mp hq with hq | hq
        · rw [hq]; exact h2
        · simpa using List.mem_takeWhile_imp hq
      exact ne_of_lt (lt_of_lt_of_le hqlt (hAge p hp))
    rw [joinTuples]
    rw [if_neg h1, if_pos h2]
    rw [ih hA hkeep x, hsplit, joinSpecTuples_drop_right f _ hdrop]
  | case5 k1 vs1 r1 k2 vs2 r2 h1 h2 ih =>
    intro hA hB x
    have heq : k1 = k2 := le_antisymm (not_lt.mp h2) (not_lt.mp h1)
    subst heq
    have hA1 : sortedKeys r1 := ((sortedKeys_cons_iff _ _).mp hA).2
    have hB1 : sortedKeys r2 := ((sortedKeys_cons_iff _ _).mp hB).2
    have hAgt : ∀ p ∈ r1, k1 < p.1 := ((sortedKeys_cons_iff _ _).mp hA).1
    have hBgt : ∀ q ∈ r2, k1 < q.1 := ((sortedKeys_cons_iff _ _).mp hB).1
    have hhead : entrySpec f ((k1, vs2) :: r2) (k1, vs1) = crossVals (f k1) vs1 vs2 := by
      rw [entrySpec_cons]
      have : entrySpec f r2 (k1, vs1) = [] := by
        refine entrySpec_eq_nil f (fun q hq => ?_)
        exact ne_of_gt (hBgt q hq)
      simp [this]
    have htail : joinSpecTuples f r1 ((k1, vs2) :: r2) = joinSpecTuples f r1 r2 := by
      refine flatMap_congr_mem (fun p hp => ?_)
      rw [entrySpec_cons]
      have : k1 ≠ p.1 := ne_of_lt (hAgt p hp)
      simp [this]
    rw [joinTuples]
    rw [if_neg h1, if_neg h2]
    rw [fromTuples_append, ih hA1 hB1 x, joinSpecTuples_cons_left, fromTuples_append,
      hhead, htail]

end JoinLemmas


section SumLemmas


theorem lsum_nil {α : Type} (φ : α → Int) : lsum [] φ = 0 := rfl

theorem lsum_cons {α : Type} (a : α) (l : List α) (φ : α → Int) :
    lsum (a :: l) φ = φ a + lsum l φ := by
  simp [lsum]

theorem lsum_congr {α : Type} {l : List α} {φ ψ : α → Int}
    (h : ∀ a ∈ l, φ a = ψ a) : lsum l φ = lsum l ψ := by
  induction l with
  | nil => rfl
  | cons a t ih =>
    rw [lsum_cons, lsum_cons, h a (List.mem_cons_self a t),
      ih (fun b hb => h b (List.mem_cons_of_mem a hb))]

theorem lsum_zero {α : Type} (l : List α) : lsum l (fun _ => 0) = 0 := by
  induction l with
  | nil => rfl
  | cons a t ih => rw [lsum_cons, ih, add_zero]

theorem lsum_add {α : Type} (l : List α) (φ ψ : α → Int) :
    lsum l (fun a => φ a + ψ a) = lsum l φ + lsum l ψ := by
  induction l with
  | nil => rfl
  | cons a t ih => rw [lsum_cons, lsum_cons, lsum_cons, ih]; ring

theorem lsum_comm {α β : Type} (l : List α) (m : List β) (φ : α → β → Int) :
    lsum l (fun a => lsum m (φ a)) = lsum m (fun b => lsum l (fun a => φ a b)) := by
  induction l with
  | nil => rw [lsum_nil, lsum_congr (fun b _ => lsum_nil (fun a => φ a b)), lsum_zero]
  | cons a t ih =>
    rw [lsum_cons, ih, ← lsum_add]
    exact lsum_congr (fun b _ => (lsum_cons a t (fun a => φ a b)).symm)

end SumLemmas

section WeightLemmas

variable {K V1 V2 κ : Type} [LinearOrder K] [DecidableEq κ]

theorem fromTuples_eq_lsum {l : List (κ × Int)} {x : κ} :
    fromTuples l x = lsum l (fun p => if p.1 = x then p.2 else 0) := by
  induction l with
  | nil => rfl
  | cons p t ih => rw [fromTuples_cons p.1 p.2 t x, lsum_cons, ih]

theorem fromTuples_flatMap_lsum {α : Type} (h : α → List (κ × Int)) (l : List α) (x : κ) :
    fromTuples (l.flatMap h) x = lsum l (fun a => fromTuples (h a) x) :=
  fromTuples_flatMap h l x

theorem fromTuples_map_pair {α : Type} (key : α → κ) (w : α → Int) (l : List α) (x : κ) :
    fromTuples (l.map fun a => (key a, w a)) x = lsum l (fun a => if key a = x then w a else 0) := by
  induction l with
  | nil => rfl
  | cons a t ih => rw [List.map_cons, fromTuples_cons, lsum_cons, ih]

/-- The weight the cross product of two value streams assigns to output key
`x`: a double sum of weight products over matching value pairs. -/
theorem crossVals_weight (fk : V1 → V2 → κ) (vs1 : List (V1 × Int)) (vs2 : List (V2 × Int))
    (x : κ) :
    fromTuples (crossVals fk vs1 vs2) x =
      lsum vs1 (fun p1 => lsum vs2 (fun p2 => if fk p1.1 p2.1 = x then p1.2 * p2.2 else 0)) := by
  rw [crossVals, fromTuples_flatMap_lsum]
  exact lsum_congr (fun p1 _ => fromTuples_map_pair _ _ vs2 x)

theorem crossVals_swap (fk : V1 → V2 → κ) (vs1 : List (V1 × Int)) (vs2 : List (V2 × Int))
    (x : κ) :
    fromTuples (crossVals fk vs1 vs2) x =
      fromTuples (crossVals (fun v2 v1 => fk v1 v2) vs2 vs1) x := by
  rw [crossVals_weight, crossVals_weight, lsum_comm]
  refine lsum_congr (fun p2 _ => lsum_congr (fun p1 _ => ?_))
  by_cases h : fk p1.1 p2.1 = x <;> simp [h, mul_comm]

/-- The declarative join weight is symmetric: swapping the inputs and
flipping the argument order of the join function yields the same Z-set. -/
theorem joinSpec_swap (f : K → V1 → V2 → κ) (A : IZ K V1) (B : IZ K V2) (x : κ) :
    fromTuples (joinSpecTuples f A B) x =
      fromTuples (joinSpecTuples (fun k v2 v1 => f k v1 v2) B A) x := by
  rw [joinSpecTuples, joinSpecTuples, fromTuples_flatMap_lsum, fromTuples_flatMap_lsum]
  have hl : ∀ p ∈ A, fromTuples (entrySpec f B p) x =
      lsum B (fun q => if q.1 = p.1 then fromTuples (crossVals (f p.1) p.2 q.2) x else 0) := by
    intro p _
    rw [entrySpec, fromTuples_flatMap_lsum]
    refine lsum_congr (fun q _ => ?_)
    by_cases h : q.1 = p.1 <;> simp [h, fromTuples_nil]
  have hr : ∀ q ∈ B, fromTuples (entrySpec (fun k v2 v1 => f k v1 v2) A q) x =
      lsum A (fun p => if p.1 = q.1 then
        fromTuples (crossVals (fun v2 v1 => f q.1 v1 v2) q.2 p.2) x else 0) := by
    intro q _
    rw [entrySpec, fromTuples_flatMap_lsum]
    refine lsum_congr (fun p _ => ?_)
    by_cases h : p.1 = q.1 <;> simp [h, fromTuples_nil]
  rw [lsum_congr hl, lsum_congr hr, lsum_comm]
  refine lsum_congr (fun q _ => lsum_congr (fun p _ => ?_))
  by_cases h : q.1 = p.1
  · rw [if_pos h, if_pos h.symm, crossVals_swap, h]
  · rw [if_neg h, if_neg (fun hc => h hc.symm)]

end WeightLemmas

section Linearity

variable {K V V1 V2 κ : Type} [LinearOrder K] [DecidableEq κ]


theorem lsum_mul_left {α : Type} (l : List α) (c : Int) (φ : α → Int) :
    lsum l (fun a => c * φ a) = c * lsum l φ := by
  induction l with
  | nil => simp [lsum_nil]
  | cons a t ih => rw [lsum_cons, lsum_cons, ih]; ring

theorem lsum_ite_const {α : Type} (c : Prop) [Decidable c] (l : List α) (φ : α → Int) :
    (if c then lsum l φ else 0) = lsum l (fun a => if c then φ a else 0) := by
  by_cases h : c <;> simp [h, lsum_zero]

theorem wsum_nil {V : Type} (g : V → Int) : wsum [] g = 0 := rfl

theorem wsum_cons {V : Type} (p : V × Int) (l : List (V × Int)) (g : V → Int) :
    wsum (p :: l) g = p.2 * g p.1 + wsum l g := by
  simp only [wsum, lsum_cons]

theorem izwsum_nil {K V : Type} (h : K → V → Int) : izwsum ([] : IZ K V) h = 0 := rfl

theorem izwsum_cons {K V : Type} (p : K × List (V × Int)) (A : IZ K V) (h : K → V → Int) :
    izwsum (p :: A) h = wsum p.2 (h p.1) + izwsum A h := by
  simp only [izwsum, lsum_cons]

/-- `plus` of value Z-sets is addition of weighted sums: the zero-eliminating
sorted merge preserves the total weight assigned to every valuation. -/
theorem wsum_valPlus [LinearOrder V] (l l' : List (V × Int)) (g : V → Int) :
    wsum (valPlus l l') g = wsum l g + wsum l' g := by
  induction l, l' using valPlus.induct with
  | case1 l => rw [valPlus, wsum_nil, zero_add]
  | case2 p r => rw [valPlus, wsum_nil, add_zero]
  | case3 v1 w1 r1 v2 w2 r2 h ih =>
    rw [valPlus, if_pos h]
    simp only [wsum_cons]
    rw [ih]
    simp only [wsum_cons]
    ring
  | case4 v1 w1 r1 v2 w2 r2 h1 h2 ih =>
    rw [valPlus, if_neg h1, if_pos h2]
    simp only [wsum_cons]
    rw [ih]
    simp only [wsum_cons]
    ring
  | case5 v1 w1 r1 v2 w2 r2 h1 h2 h3 ih =>
    have hv : v1 = v2 := le_antisymm (not_lt.mp h2) (not_lt.mp h1)
    subst hv
    rw [valPlus, if_neg h1, if_neg h2, if_pos h3, ih]
    simp only [wsum_cons]
    rw [show w1 * g v1 + wsum r1 g + (w2 * g v1 + wsum r2 g)
        = (w1 + w2) * g v1 + (wsum r1 g + wsum r2 g) from by ring, h3]
    ring
  | case6 v1 w1 r1 v2 w2 r2 h1 h2 h3 ih =>
    have hv : v1 = v2 := le_antisymm (not_lt.mp h2) (not_lt.mp h1)
    subst hv
    rw [valPlus, if_neg h1, if_neg h2, if_neg h3]
    simp only [wsum_cons]
    rw [ih]
    ring

/-- `plus` of indexed Z-sets is addition of weighted sums. -/
theorem izwsum_izPlus [LinearOrder V] (A A' : IZ K V) (h : K → V → Int) :
    izwsum (izPlus A A') h = izwsum A h + izwsum A' h := by
  induction A, A' using izPlus.induct with
  | case1 l => rw [izPlus, izwsum_nil, zero_add]
  | case2 p r => rw [izPlus, izwsum_nil, add_zero]
  | case3 k1 vs1 r1 k2 vs2 r2 hk ih =>
    rw [izPlus, if_pos hk]
    simp only [izwsum_cons]
    rw [ih]
    simp only [izwsum_cons]
    ring
  | case4 k1 vs1 r1 k2 vs2 r2 h1 h2 ih =>
    rw [izPlus, if_neg h1, if_pos h2]
    simp only [izwsum_cons]
    rw [ih]
    simp only [izwsum_cons]
    ring
  | case5 k1 vs1 r1 k2 vs2 r2 h1 h2 h3 ih =>
    have hk : k1 = k2 := le_antisymm (not_lt.mp h2) (not_lt.mp h1)
    subst hk
    rw [izPlus, if_neg h1, if_neg h2, if_pos h3, ih]
    simp only [izwsum_cons]
    have hnil : valPlus vs1 vs2 = [] := List.isEmpty_iff.mp h3
    have hz := wsum_valPlus vs1 vs2 (h k1)
    rw [hnil, wsum_nil] at hz
    rw [show wsum vs1 (h k1) + izwsum r1 h + (wsum vs2 (h k1) + izwsum r2 h)
        = (wsum vs1 (h k1) + wsum vs2 (h k1)) + (izwsum r1 h + izwsum r2 h) from by ring, ← hz]
    ring
  | case6 k1 vs1 r1 k2 vs2 r2 h1 h2 h3 ih =>
    have hk : k1 = k2 := le_antisymm (not_lt.mp h2) (not_lt.mp h1)
    subst hk
    rw [izPlus, if_neg h1, if_neg h2, if_neg h3]
    simp only [izwsum_cons]
    rw [ih, wsum_valPlus]
    ring

/-- The declarative join weight, in weighted-sum normal form: the weight of
output key `x` is a bilinear form in the two input Z-sets. -/
theorem joinSpec_weight_izwsum (f : K → V1 → V2 → κ) (A : IZ K V1) (B : IZ K V2) (x : κ) :
    fromTuples (joinSpecTuples f A B) x =
      izwsum A (fun k v1 =>
        izwsum B (fun k2 v2 => if k2 = k ∧ f k v1 v2 = x then 1 else 0)) := by
  rw [joinSpecTuples, fromTuples_flatMap_lsum, izwsum]
  refine lsum_congr (fun p _ => ?_)
  rw [entrySpec, fromTuples_flatMap_lsum]
  have h1 : ∀ q ∈ B, fromTuples (if q.1 = p.1 then crossVals (f p.1) p.2 q.2 else []) x
      = lsum p.2 (fun p1 => if q.1 = p.1 then
          lsum q.2 (fun p2 => if f p.1 p1.1 p2.1 = x then p1.2 * p2.2 else 0) else 0) := by
    intro q _
    by_cases h : q.1 = p.1
    · rw [if_pos h, crossVals_weight]
      exact lsum_congr (fun p1 _ => by rw [if_pos h])
    · simp only [if_neg h, fromTuples_nil, lsum_zero]
  rw [lsum_congr h1, lsum_comm, wsum]
  refine lsum_congr (fun p1 _ => ?_)
  rw [izwsum, ← lsum_mul_left]
  refine lsum_congr (fun q _ => ?_)
  rw [lsum_ite_const, wsum, ← lsum_mul_left]
  refine lsum_congr (fun p2 _ => ?_)
  by_cases h : q.1 = p.1
  · by_cases h2 : f p.1 p1.1 p2.1 = x
    · simp only [h, h2, and_self, if_pos, if_true]
      ring
    · simp [h, h2]
  · simp [h]

/-- The weight of the join output is additive in the first input. -/
theorem joinSpec_izPlus_left [LinearOrder V1] (f : K → V1 → V2 → κ) (A A' : IZ K V1)
    (B : IZ K V2) (x : κ) :
    fromTuples (joinSpecTuples f (izPlus A A') B) x
      = fromTuples (joinSpecTuples f A B) x + fromTuples (joinSpecTuples f A' B) x := by
  rw [joinSpec_weight_izwsum, joinSpec_weight_izwsum, joinSpec_weight_izwsum, izwsum_izPlus]

/-- The weight of the join output is additive in the second input. -/
theorem joinSpec_izPlus_right [LinearOrder V2] (f : K → V1 → V2 → κ) (A : IZ K V1)
    (B B' : IZ K V2) (x : κ) :
    fromTuples (joinSpecTuples f A (izPlus B B')) x
      = fromTuples (joinSpecTuples f A B) x + fromTuples (joinSpecTuples f A B') x := by
  rw [joinSpec_swap f A (izPlus B B'), joinSpec_izPlus_left, ← joinSpec_swap f A B,
    ← joinSpec_swap f A B']

end Linearity

section Sortedness

variable {K V : Type} [LinearOrder K] [LinearOrder V]

theorem mem_izPlus_keys {A A' : IZ K V} {p : K × List (V × Int)} :
    p ∈ izPlus A A' → (∃ q ∈ A, p.1 = q.1) ∨ (∃ q ∈ A', p.1 = q.1) := by
  induction A, A' using izPlus.induct with
  | case1 l => rw [izPlus]; intro hp; exact Or.inr ⟨p, hp, rfl⟩
  | case2 q r => rw [izPlus]; intro hp; exact Or.inl ⟨p, hp, rfl⟩
  | case3 k1 vs1 r1 k2 vs2 r2 hk ih =>
    rw [izPlus, if_pos hk]
    intro hp
    rcases List.mem_cons.mp hp with hp | hp
    · exact Or.inl ⟨(k1, vs1), List.mem_cons_self _ _, by rw [hp]⟩
    · rcases ih hp with ⟨q, hq, hq1⟩ | h
      · exact Or.inl ⟨q, List.mem_cons_of_mem _ hq, hq1⟩
      · exact Or.inr h
  | case4 k1 vs1 r1 k2 vs2 r2 h1 h2 ih =>
    rw [izPlus, if_neg h1, if_pos h2]
    intro hp
    rcases List.mem_cons.mp hp with hp | hp
    · exact Or.inr ⟨(k2, vs2), List.mem_cons_self _ _, by rw [hp]⟩
    · rcases ih hp with h | ⟨q, hq, hq1⟩
      · exact Or.inl h
      · exact Or.inr ⟨q, List.mem_cons_of_mem _ hq, hq1⟩
  | case5 k1 vs1 r1 k2 vs2 r2 h1 h2 h3 ih =>
    rw [izPlus, if_neg h1, if_neg h2, if_pos h3]
    intro hp
    rcases ih hp with ⟨q, hq, hq1⟩ | ⟨q, hq, hq1⟩
    · exact Or.inl ⟨q, List.mem_cons_of_mem _ hq, hq1⟩
    · exact Or.inr ⟨q, List.mem_cons_of_mem _ hq, hq1⟩
  | case6 k1 vs1 r1 k2 vs2 r2 h1 h2 h3 ih =>
    rw [izPlus, if_neg h1, if_neg h2, if_neg h3]
    intro hp
    rcases List.mem_cons.mp hp with hp | hp
    · exact Or.inl ⟨(k1, vs1), List.mem_cons_self _ _, by rw [hp]⟩
    · rcases ih hp with ⟨q, hq, hq1⟩ | ⟨q, hq, hq1⟩
      · exact Or.inl ⟨q, List.mem_cons_of_mem _ hq, hq1⟩
      · exact Or.inr ⟨q, List.mem_cons_of_mem _ hq, hq1⟩

/-- `plus` of indexed Z-sets preserves the batch key order invariant. -/
theorem sortedKeys_izPlus {A A' : IZ K V} (hA : sortedKeys A) (hA' : sortedKeys A') :
    sortedKeys (izPlus A A') := by
  induction A, A' using izPlus.induct with
  | case1 l => rw [izPlus]; exact hA'
  | case2 q r => rw [izPlus]; exact hA
  | case3 k1 vs1 r1 k2 vs2 r2 hk ih =>
    rw [izPlus, if_pos hk]
    have h1 := (sortedKeys_cons_iff _ _).mp hA
    refine (sortedKeys_cons_iff _ _).mpr ⟨?_, ih h1.2 hA'⟩
    intro q hq
    rcases mem_izPlus_keys hq with ⟨r, hr, hr1⟩ | ⟨r, hr, hr1⟩
    · rw [hr1]; exact h1.1 r hr
    · rw [hr1]
      rcases List.mem_cons.mp hr with hr | hr
      · rw [hr]; exact hk
      · exact lt_trans hk (((sortedKeys_cons_iff _ _).mp hA').1 r hr)
  | case4 k1 vs1 r1 k2 vs2 r2 h1 h2 ih =>
    rw [izPlus, if_neg h1, if_pos h2]
    have hA'c := (sortedKeys_cons_iff _ _).mp hA'
    refine (sortedKeys_cons_iff _ _).mpr ⟨?_, ih hA hA'c.2⟩
    intro q hq
    rcases mem_izPlus_keys hq with ⟨r, hr, hr1⟩ | ⟨r, hr, hr1⟩
    · rw [hr1]
      rcases List.mem_cons.mp hr with hr | hr
      · rw [hr]; exact h2
      · exact lt_trans h2 (((sortedKeys_cons_iff _ _).mp hA).1 r hr)
    · rw [hr1]; exact hA'c.1 r hr
  | case5 k1 vs1 r1 k2 vs2 r2 h1 h2 h3 ih =>
    rw [izPlus, if_neg h1, if_neg h2, if_pos h3]
    exact ih ((sortedKeys_cons_iff _ _).mp hA).2 ((sortedKeys_cons_iff _ _).mp hA').2
  | case6 k1 vs1 r1 k2 vs2 r2 h1 h2 h3 ih =>
    have hk : k1 = k2 := le_antisymm (not_lt.mp h2) (not_lt.mp h1)
    subst hk
    rw [izPlus, if_neg h1, if_neg h2, if_neg h3]
    have hAc := (sortedKeys_cons_iff _ _).mp hA
    have hA'c := (sortedKeys_cons_iff _ _).mp hA'
    refine (sortedKeys_cons_iff _ _).mpr ⟨?_, ih hAc.2 hA'c.2⟩
    intro q hq
    rcases mem_izPlus_keys hq with ⟨r, hr, hr1⟩ | ⟨r, hr, hr1⟩
    · rw [hr1]; exact hAc.1 r hr
    · rw [hr1]; exact hA'c.1 r hr

end Sortedness

section Streams

variable {K V V1 V2 κ : Type} [LinearOrder K] [DecidableEq κ]


theorem sortedKeys_integ [LinearOrder V] {s : ℕ → IZ K V} (hs : ∀ i, sortedKeys (s i))
    (n : ℕ) : sortedKeys (integ s n) := by
  induction n with
  | zero => exact hs 0
  | succ n ih => exact sortedKeys_izPlus ih (hs (n + 1))

theorem joinTuples_nil_left [LinearOrder V1] [LinearOrder V2] (f : K → V1 → V2 → κ)
    (B : IZ K V2) : joinTuples f ([] : IZ K V1) B = [] := by
  rw [joinTuples]

/-- Incrementality of `join_incremental`: at every step, the cumulative sum
of the incremental outputs equals the non-incremental join of the
integrated inputs. -/
theorem sum_incremental_eq [LinearOrder V1] [LinearOrder V2] (f : K → V1 → V2 → κ)
    (a : ℕ → IZ K V1) (b : ℕ → IZ K V2)
    (ha : ∀ i, sortedKeys (a i)) (hb : ∀ i, sortedKeys (b i)) (n : ℕ) (x : κ) :
    sumOut (joinIncOut f a b) n x = joinOutput f (integ a n) (integ b n) x := by
  induction n with
  | zero =>
    show joinIncOut f a b 0 x = _
    rw [joinIncOut]
    rw [show delayInteg a 0 = [] from rfl, joinOutput, joinTuples_nil_left]
    rw [show integ b 0 = b 0 from rfl, show integ a 0 = a 0 from rfl]
    rw [show fromTuples ([] : List (κ × Int)) x = 0 from rfl, zero_add]
  | succ n ih =>
    show sumOut (joinIncOut f a b) n x + joinIncOut f a b (n + 1) x = _
    rw [ih, joinIncOut]
    rw [show delayInteg a (n + 1) = integ a n from rfl]
    rw [show integ b (n + 1) = izPlus (integ b n) (b (n + 1)) from rfl]
    rw [show integ a (n + 1) = izPlus (integ a n) (a (n + 1)) from rfl]
    have hIa := sortedKeys_integ ha n
    have hIb := sortedKeys_integ hb n
    rw [joinOutput, joinOutput, joinOutput, joinOutput,
      joinTuples_weight f _ _ hIa hIb x,
      joinTuples_weight f _ _ hIa (hb (n + 1)) x,
      joinTuples_weight f _ _ (ha (n + 1)) (sortedKeys_izPlus hIb (hb (n + 1))) x,
      joinTuples_weight f _ _ (sortedKeys_izPlus hIa (ha (n + 1)))
        (sortedKeys_izPlus hIb (hb (n + 1))) x]
    rw [joinSpec_izPlus_left, joinSpec_izPlus_right, joinSpec_izPlus_right]
    ring

end Streams


/-- Claim C1: for inputs `A : IZ<K,V1,W>` and `B : IZ<K,V2,W>` with trivial
time and any join function `f`, `Join::eval(A, B)` returns the Z-set that
assigns to each output key the sum of `w1 * w2` over all matching triples
`(k, v1, v2)` mapping to it (zero sums removed); keys present in only one
of the two inputs contribute nothing — i.e. the output weight function
coincides with the declarative join weight function. -/
theorem C1_join_eval_matches_spec {K V1 V2 κ : Type} [LinearOrder K] [DecidableEq κ]
    (f : K → V1 → V2 → κ) (A : IZ K V1) (B : IZ K V2)
    (hA : sortedKeys A) (hB : sortedKeys B) (x : κ) :
    joinOutput f A B x = fromTuples (joinSpecTuples f A B) x :=
  joinTuples_weight f A B hA hB x

theorem C1_witness :
    sortedKeys [(1, [(10, 1), (11, 2)]), (2, [(12, 3), (13, 4)])] ∧
    sortedKeys [(2, [(20, 3), (21, 4)])] ∧
    joinOutput (fun (k v1 v2 : ℕ) => (k, v1, v2))
        [(1, [(10, 1), (11, 2)]), (2, [(12, 3), (13, 4)])] [(2, [(20, 3), (21, 4)])]
        (2, 12, 20)
      = fromTuples (joinSpecTuples (fun (k v1 v2 : ℕ) => (k, v1, v2))
        [(1, [(10, 1), (11, 2)]), (2, [(12, 3), (13, 4)])] [(2, [(20, 3), (21, 4)])])
        (2, 12, 20) :=
  ⟨by decide, by decide,
    C1_join_eval_matches_spec (fun k v1 v2 => (k, v1, v2)) _ _ (by decide) (by decide) _⟩

/-- Claim C2: for every pair of delta streams fed step by step (all deltas
honoring the batch key invariant), the integral of the outputs of
`join_incremental(a, b, f)` at step `n` equals the non-incremental join of
the integrated inputs at step `n`. -/
theorem C2_join_incremental_integral {K V1 V2 κ : Type} [LinearOrder K] [LinearOrder V1]
    [LinearOrder V2] [DecidableEq κ] (f : K → V1 → V2 → κ)
    (a : ℕ → IZ K V1) (b : ℕ → IZ K V2)
    (ha : ∀ i, sortedKeys (a i)) (hb : ∀ i, sortedKeys (b i)) (n : ℕ) (x : κ) :
    sumOut (joinIncOut f a b) n x = joinOutput f (integ a n) (integ b n) x :=
  sum_incremental_eq f a b ha hb n x

theorem C2_witness :
    (∀ i : ℕ, sortedKeys ([(1, [(5, 1)])] : IZ ℕ ℕ)) ∧
    sumOut (joinIncOut (fun (k v1 v2 : ℕ) => (k, v1, v2))
        (fun _ => [(1, [(5, 1)])]) (fun _ => [(1, [(7, 2)])])) 1 (1, 5, 7)
      = joinOutput (fun (k v1 v2 : ℕ) => (k, v1, v2))
        (integ (fun _ => [(1, [(5, 1)])]) 1) (integ (fun _ => [(1, [(7, 2)])]) 1) (1, 5, 7) :=
  ⟨fun _ => by decide,
    C2_join_incremental_integral (fun k v1 v2 => (k, v1, v2)) _ _
      (fun _ => by decide) (fun _ => by decide) 1 (1, 5, 7)⟩

/-- Claim C8: `Join::eval(A, B, f)` equals `Join::eval(B, A, flip f)` as a
Z-set — the weight of every output key is the same under both orders (this
uses commutativity of the weight multiplication `w1 * w2`). -/
theorem C8_join_comm {K V1 V2 κ : Type} [LinearOrder K] [DecidableEq κ]
    (f : K → V1 → V2 → κ) (A : IZ K V1) (B : IZ K V2)
    (hA : sortedKeys A) (hB : sortedKeys B) (x : κ) :
    joinOutput f A B x = joinOutput (fun k v2 v1 => f k v1 v2) B A x := by
  rw [joinOutput, joinOutput, joinTuples_weight f A B hA hB x,
    joinTuples_weight _ B A hB hA x, joinSpec_swap]

theorem C8_witness :
    sortedKeys [(1, [(10, 1), (11, 2)]), (2, [(12, 3), (13, 4)])] ∧
    sortedKeys [(2, [(20, 3), (21, 4)])] ∧
    joinOutput (fun (k v1 v2 : ℕ) => (k, v1, v2))
        [(1, [(10, 1), (11, 2)]), (2, [(12, 3), (13, 4)])] [(2, [(20, 3), (21, 4)])]
        (2, 13, 21)
      = joinOutput (fun (k : ℕ) (v2 v1 : ℕ) => (k, v1, v2))
        [(2, [(20, 3), (21, 4)])] [(1, [(10, 1), (11, 2)]), (2, [(12, 3), (13, 4)])]
        (2, 13, 21) :=
  ⟨by decide, by decide,
    C8_join_comm (fun k v1 v2 => (k, v1, v2)) _ _ (by decide) (by decide) _⟩

/-- Claim C9: concrete two-step scenario for `join_incremental` with
`f(k, s1, s2) = (k, s1 + " " + s2)`: with step-1 inputs
`A = {(1,"a"):1, (1,"b"):2, (2,"c"):3, (2,"d"):4}` and
`B = {(2,"g"):3, (2,"h"):4}`, and step-2 deltas `dA = {(1,"a"):1}` and
`dB = {(1,"b"):1}`, the incremental output at step 2 is exactly
`{(1,"a b"):2, (1,"b b"):2}`. -/
theorem C9_incremental_two_step_scenario :
    ∀ x, joinIncOut exf exa exb 1 x = fromTuples [((1, "a b"), 2), ((1, "b b"), 2)] x := by
  intro x
  rw [joinIncOut]
  have hib : integ exb 1 = [(1, [("b", 1)]), (2, [("g", 3), ("h", 4)])] := by
    show izPlus exB exDB = _
    simp [izPlus, exB, exDB]
  have h1 : joinTuples exf (delayInteg exa 1) (exb 1) = [((1, "a b"), 1), ((1, "b b"), 2)] := by
    show joinTuples exf exA exDB = _
    simp [joinTuples, crossVals, seekKey, exA, exDB, exf]
  have h2 : joinTuples exf (exa 1) (integ exb 1) = [((1, "a b"), 1)] := by
    rw [hib]
    show joinTuples exf exDA _ = _
    simp [joinTuples, crossVals, seekKey, exDA, exf]
  rw [joinOutput, joinOutput, h1, h2]
  by_cases hx1 : ((1 : ℕ), "a b") = x
  · rw [← hx1]
    simp [fromTuples_cons, fromTuples_nil]
  · by_cases hx2 : ((1 : ℕ), "b b") = x
    · rw [← hx2]
      simp [fromTuples_cons, fromTuples_nil]
    · simp [fromTuples_cons, fromTuples_nil, hx1, hx2]


section ALLemmas

variable {T κ : Type} [DecidableEq T] [DecidableEq κ]

theorem alLookup_cons {β : Type} (q : T × β) (r : List (T × β)) (t : T) :
    alLookup t (q :: r) = if q.1 = t then some q.2 else alLookup t r := by
  rcases q with ⟨a, b⟩
  by_cases h : a = t <;> simp [alLookup, h]

theorem lookupD_cons (q : T × List (κ × Int)) (r : List (T × List (κ × Int))) (t : T) :
    lookupD t (q :: r) = if q.1 = t then q.2 else lookupD t r := by
  rw [lookupD, alLookup_cons]
  by_cases h : q.1 = t <;> simp [lookupD, h]

theorem alPush_cons (t' : T) (run : List (κ × Int)) (q : T × List (κ × Int))
    (r : List (T × List (κ × Int))) :
    alPush t' run (q :: r) =
      if q.1 = t' then (q.1, q.2 ++ run) :: r else q :: alPush t' run r := by
  rcases q with ⟨a, b⟩
  by_cases h : a = t' <;> simp [alPush, h]

theorem alRemove_cons {β : Type} (t : T) (q : T × β) (r : List (T × β)) :
    alRemove t (q :: r) =
      if q.1 = t then (some q.2, r) else ((alRemove t r).1, q :: (alRemove t r).2) := by
  rcases q with ⟨a, b⟩
  by_cases h : a = t <;> simp [alRemove, h]

theorem lookupD_alPush (t' t : T) (run : List (κ × Int)) (m : List (T × List (κ × Int))) :
    lookupD t (alPush t' run m) =
      if t' = t then lookupD t m ++ run else lookupD t m := by
  induction m with
  | nil =>
    by_cases h : t' = t <;> simp [alPush, alLookup, lookupD, h]
  | cons q r ih =>
    rw [alPush_cons]
    by_cases hq : q.1 = t'
    · rw [if_pos hq, lookupD_cons, lookupD_cons]
      by_cases hqt : q.1 = t
      · rw [if_pos hqt, if_pos hqt, if_pos (hq.symm.trans hqt)]
      · rw [if_neg hqt, if_neg hqt, if_neg (fun hc : t' = t => hqt (hq.trans hc))]
    · rw [if_neg hq, lookupD_cons, lookupD_cons, ih]
      by_cases hqt : q.1 = t
      · rw [if_pos hqt, if_pos hqt, if_neg (fun hc : t' = t => hq (hqt.trans hc.symm))]
      · rw [if_neg hqt, if_neg hqt]

theorem lookupD_foldPush (gs : List (T × List (κ × Int))) (m : List (T × List (κ × Int)))
    (t : T) :
    lookupD t (gs.foldl (fun m g => alPush g.1 g.2 m) m)
      = lookupD t m ++ ((gs.filter (fun g => g.1 = t)).flatMap (fun g => g.2)) := by
  induction gs generalizing m with
  | nil => simp
  | cons g r ih =>
    rw [List.foldl_cons, ih, lookupD_alPush, List.filter_cons]
    by_cases h : g.1 = t
    · simp [h, List.flatMap_cons]
    · simp [h]

theorem alRemove_fst {β : Type} (t : T) (m : List (T × β)) :
    (alRemove t m).1 = alLookup t m := by
  induction m with
  | nil => rfl
  | cons q r ih =>
    by_cases h : q.1 = t <;> simp [alRemove, alLookup, h, ih]

theorem alLookup_alRemove_ne {β : Type} {t t' : T} (h : t' ≠ t) (m : List (T × β)) :
    alLookup t' (alRemove t m).2 = alLookup t' m := by
  induction m with
  | nil => rfl
  | cons q r ih =>
    rw [alRemove_cons]
    by_cases hq : q.1 = t
    · rw [if_pos hq, alLookup_cons, if_neg (fun hc : q.1 = t' => h (hc.symm.trans hq))]
    · rw [if_neg hq, alLookup_cons, alLookup_cons]
      by_cases hq' : q.1 = t'
      · rw [if_pos hq', if_pos hq']
      · rw [if_neg hq', if_neg hq', ih]

theorem alLookup_eq_none_of_not_mem {β : Type} {t : T} {m : List (T × β)}
    (h : t ∉ m.map Prod.fst) : alLookup t m = none := by
  induction m with
  | nil => rfl
  | cons q r ih =>
    simp only [List.map_cons, List.mem_cons, not_or] at h
    have : ¬q.1 = t := fun hc => h.1 hc.symm
    simp [alLookup, this, ih h.2]

theorem alLookup_alRemove_self {β : Type} (t : T) (m : List (T × β))
    (h : (m.map Prod.fst).Nodup) : alLookup t (alRemove t m).2 = none := by
  induction m with
  | nil => rfl
  | cons q r ih =>
    simp only [List.map_cons, List.nodup_cons] at h
    rw [alRemove_cons]
    by_cases hq : q.1 = t
    · rw [if_pos hq]
      exact alLookup_eq_none_of_not_mem (hq ▸ h.1)
    · rw [if_neg hq, alLookup_cons, if_neg hq, ih h.2]

theorem keys_alPush (t : T) (run : List (κ × Int)) (m : List (T × List (κ × Int))) :
    (alPush t run m).map Prod.fst =
      if t ∈ m.map Prod.fst then m.map Prod.fst else m.map Prod.fst ++ [t] := by
  induction m with
  | nil => simp [alPush]
  | cons q r ih =>
    by_cases hq : q.1 = t
    · simp [alPush, hq]
    · have : ¬t = q.1 := fun hc => hq hc.symm
      by_cases ht : t ∈ r.map Prod.fst <;>
        simp [alPush, hq, ih, ht, this]

theorem nodup_keys_alPush (t : T) (run : List (κ × Int)) {m : List (T × List (κ × Int))}
    (h : (m.map Prod.fst).Nodup) : ((alPush t run m).map Prod.fst).Nodup := by
  rw [keys_alPush]
  by_cases ht : t ∈ m.map Prod.fst
  · simpa [ht] using h
  · simp only [if_neg ht]
    exact List.Nodup.append h (List.nodup_singleton t) (by simpa using ht)

theorem nodup_keys_foldPush (gs : List (T × List (κ × Int)))
    {m : List (T × List (κ × Int))} (h : (m.map Prod.fst).Nodup) :
    (((gs.foldl (fun m g => alPush g.1 g.2 m) m)).map Prod.fst).Nodup := by
  induction gs generalizing m with
  | nil => exact h
  | cons g r ih => exact ih (nodup_keys_alPush g.1 g.2 h)

theorem filter_of_all_true {α : Type} {p : α → Bool} :
    ∀ {l : List α}, (∀ a ∈ l, p a = true) → l.filter p = l
  | [], _ => rfl
  | a :: t, h => by
    rw [List.filter_cons, if_pos (h a (List.mem_cons_self a t))]
    rw [filter_of_all_true (fun b hb => h b (List.mem_cons_of_mem a hb))]

theorem filter_of_all_false {α : Type} {p : α → Bool} :
    ∀ {l : List α}, (∀ a ∈ l, p a = false) → l.filter p = []
  | [], _ => rfl
  | a :: t, h => by
    rw [List.filter_cons, h a (List.mem_cons_self a t)]
    exact filter_of_all_false (fun b hb => h b (List.mem_cons_of_mem a hb))

/-- Concatenating the runs of `groupRuns` carrying timestamp `t` recovers
exactly the tuples of the underlying list carrying timestamp `t`. -/
theorem groupRuns_flat {β : Type} (t : T) :
    ∀ l : List (T × β),
      ((groupRuns l).filter (fun g => g.1 = t)).flatMap (fun g => g.2)
        = (l.filter (fun p => p.1 = t)).map Prod.snd := by
  intro l
  induction l using groupRuns.induct with
  | case1 => simp [groupRuns]
  | case2 t0 x rest ih =>
    rw [groupRuns]
    have hsplit : rest = rest.takeWhile (fun p => p.1 = t0) ++
        rest.dropWhile (fun p => p.1 = t0) :=
      (List.takeWhile_append_dropWhile _ _).symm
    by_cases h : t0 = t
    · subst h
      have htake : (rest.takeWhile (fun p => p.1 = t0)).filter
          (fun p => p.1 = t0) = rest.takeWhile (fun p => p.1 = t0) :=
        filter_of_all_true (fun a ha => by simpa using List.mem_takeWhile_imp ha)
      rw [List.filter_cons, if_pos (by simp), List.flatMap_cons, ih, List.filter_cons,
        if_pos (by simp)]
      conv_rhs => rw [hsplit]
      rw [List.filter_append, htake]
      simp [List.map_append]
    · have htake : (rest.takeWhile (fun p => p.1 = t0)).filter
          (fun p => p.1 = t) = [] := by
        refine filter_of_all_false (fun a ha => ?_)
        have h0 := List.mem_takeWhile_imp ha
        simp only [decide_eq_true_eq] at h0
        simp [h0, h]
      rw [List.filter_cons, if_neg (by simpa using h), ih, List.filter_cons,
        if_neg (by simpa using h)]
      conv_rhs => rw [hsplit]
      rw [List.filter_append, htake]
      simp

end ALLemmas

section JoinTraceLemmas

variable {K V1 V2 T κ : Type} [LinearOrder K] [DecidableEq T] [DecidableEq κ]

theorem fromTuples_sorted_filter (le : (T × (κ × Int)) → (T × (κ × Int)) → Bool)
    (tuples : List (T × (κ × Int))) (t : T) (x : κ) :
    fromTuples (((tuples.mergeSort le).filter (fun p => p.1 = t)).map Prod.snd) x
      = fromTuples ((tuples.filter (fun p => p.1 = t)).map Prod.snd) x :=
  fromTuples_perm (((List.mergeSort_perm tuples le).filter _).map _) x

/-- Every tuple produced by the merge loop of `JoinTrace::eval` is placed at
a time of the form `t2.join(self.time)` for some trace time `t2`. -/
theorem genTuples_time_shape (ops : TimeOps T) (f : K → V1 → V2 → κ) (time : T) :
    ∀ (ix : IZ K V1) (tr : TraceC K V2 T),
      ∀ p ∈ genTuples ops f time ix tr, ∃ t2, p.1 = ops.join t2 time := by
  intro ix tr
  induction ix, tr using genTuples.induct ops f time with
  | case1 tr => rw [genTuples]; intro p hp; cases hp
  | case2 p r => rw [genTuples]; intro p hp; cases hp
  | case3 k1 vs1 r1 k2 vs2 r2 h ih =>
    rw [genTuples, if_pos h]; exact ih
  | case4 k1 vs1 r1 k2 vs2 r2 h1 h2 ih =>
    rw [genTuples, if_neg h1, if_pos h2]; exact ih
  | case5 k1 vs1 r1 k2 vs2 r2 h1 h2 ih =>
    rw [genTuples, if_neg h1, if_neg h2]
    intro p hp
    rcases List.mem_append.mp hp with hp | hp
    · simp only [List.mem_flatMap, List.mem_map] at hp
      obtain ⟨p1, _, p2, _, tw, _, heq⟩ := hp
      exact ⟨tw.1, by rw [← heq]⟩
    · exact ih p hp

end JoinTraceLemmas


/-- Claim C3: each `JoinTrace::eval` call produces one tuple
`(f(k,v1,v2), w1*w2)` per matching `(k, v1, v2, (t2, w2))` at time
`t2.join(self.time)` (last conjunct: every produced time has this form);
the batch of tuples at the current `self.time`, together with the
previously buffered batcher for that time, is sealed and returned (first
conjunct), that entry is removed from `output_batchers` (fourth conjunct),
tuples at other (later) times are buffered into the `Time -> Batcher`
mapping (third conjunct), and `self.time` advances by `advance(0)` (second
conjunct). -/
theorem C3_joinTrace_eval_characterization {K V1 V2 T κ : Type} [LinearOrder K]
    [DecidableEq T] [DecidableEq κ]
    (ops : TimeOps T) (f : K → V1 → V2 → κ) (st : JTState T κ)
    (index : IZ K V1) (trace : TraceC K V2 T)
    (hnd : (st.output_batchers.map Prod.fst).Nodup) :
    (∀ x, fromTuples (evalJT ops f st index trace).2 x
        = fromTuples (lookupD st.time st.output_batchers) x
          + fromTuples (((genTuples ops f st.time index trace).filter
              (fun p => p.1 = st.time)).map Prod.snd) x)
    ∧ (evalJT ops f st index trace).1.time = ops.advance st.time 0
    ∧ (∀ t, t ≠ st.time → ∀ x,
        fromTuples (lookupD t (evalJT ops f st index trace).1.output_batchers) x
          = fromTuples (lookupD t st.output_batchers) x
            + fromTuples (((genTuples ops f st.time index trace).filter
                (fun p => p.1 = t)).map Prod.snd) x)
    ∧ alLookup st.time (evalJT ops f st index trace).1.output_batchers = none
    ∧ (∀ p ∈ genTuples ops f st.time index trace, ∃ t2, p.1 = ops.join t2 st.time) := by
  have hbs : ∀ t x, fromTuples (lookupD t
      ((groupRuns ((genTuples ops f st.time index trace).mergeSort
        (fun p q => ops.ordLe p.1 q.1))).foldl (fun m g => alPush g.1 g.2 m)
        st.output_batchers)) x
      = fromTuples (lookupD t st.output_batchers) x
        + fromTuples (((genTuples ops f st.time index trace).filter
            (fun p => p.1 = t)).map Prod.snd) x := by
    intro t x
    rw [lookupD_foldPush, fromTuples_append, groupRuns_flat, fromTuples_sorted_filter]
  refine ⟨?_, rfl, ?_, ?_, genTuples_time_shape ops f st.time index trace⟩
  · intro x
    have hres : (evalJT ops f st index trace).2 = lookupD st.time
        ((groupRuns ((genTuples ops f st.time index trace).mergeSort
          (fun p q => ops.ordLe p.1 q.1))).foldl (fun m g => alPush g.1 g.2 m)
          st.output_batchers) := by
      show (alRemove st.time _).1.getD [] = _
      rw [alRemove_fst]
      rfl
    rw [hres, hbs]
  · intro t ht x
    have hmap : lookupD t (evalJT ops f st index trace).1.output_batchers = lookupD t
        ((groupRuns ((genTuples ops f st.time index trace).mergeSort
          (fun p q => ops.ordLe p.1 q.1))).foldl (fun m g => alPush g.1 g.2 m)
          st.output_batchers) := by
      show lookupD t (alRemove st.time _).2 = _
      rw [lookupD, alLookup_alRemove_ne ht]
      rfl
    rw [hmap, hbs]
  · show alLookup st.time (alRemove st.time _).2 = none
    exact alLookup_alRemove_self _ _ (nodup_keys_foldPush _ hnd)

theorem C3_witness :
    (([] : List (ℕ × List (ℕ × Int))).map Prod.fst).Nodup ∧
    ((∀ x, fromTuples (evalJT natOps (fun (k v1 v2 : ℕ) => k + v1 + v2)
          ⟨0, [], false, false⟩ [(1, [(2, 1)])] [(1, [(3, [(0, 1)])])]).2 x
        = fromTuples (lookupD 0 ([] : List (ℕ × List (ℕ × Int)))) x
          + fromTuples (((genTuples natOps (fun (k v1 v2 : ℕ) => k + v1 + v2) 0
              [(1, [(2, 1)])] [(1, [(3, [(0, 1)])])]).filter
              (fun p => p.1 = 0)).map Prod.snd) x)
      ∧ (evalJT natOps (fun (k v1 v2 : ℕ) => k + v1 + v2)
          ⟨0, [], false, false⟩ [(1, [(2, 1)])] [(1, [(3, [(0, 1)])])]).1.time
          = natOps.advance 0 0
      ∧ (∀ t, t ≠ 0 → ∀ x,
          fromTuples (lookupD t (evalJT natOps (fun (k v1 v2 : ℕ) => k + v1 + v2)
            ⟨0, [], false, false⟩ [(1, [(2, 1)])]
            [(1, [(3, [(0, 1)])])]).1.output_batchers) x
          = fromTuples (lookupD t ([] : List (ℕ × List (ℕ × Int)))) x
            + fromTuples (((genTuples natOps (fun (k v1 v2 : ℕ) => k + v1 + v2) 0
                [(1, [(2, 1)])] [(1, [(3, [(0, 1)])])]).filter
                (fun p => p.1 = t)).map Prod.snd) x)
      ∧ alLookup 0 (evalJT natOps (fun (k v1 v2 : ℕ) => k + v1 + v2)
          ⟨0, [], false, false⟩ [(1, [(2, 1)])]
          [(1, [(3, [(0, 1)])])]).1.output_batchers = none
      ∧ (∀ p ∈ genTuples natOps (fun (k v1 v2 : ℕ) => k + v1 + v2) 0
          [(1, [(2, 1)])] [(1, [(3, [(0, 1)])])], ∃ t2, p.1 = natOps.join t2 0)) :=
  ⟨by decide,
    C3_joinTrace_eval_characterization natOps (fun k v1 v2 => k + v1 + v2)
      ⟨0, [], false, false⟩ [(1, [(2, 1)])] [(1, [(3, [(0, 1)])])] (by decide)⟩

/-- Claim C4: `JoinTrace::fixedpoint(scope)` returns true exactly when
`empty_input` and `empty_output` hold and no pending batcher has a time
less-or-equal to `self.time.epoch_end(scope)`; `empty_input` is set by each
eval to `index.is_empty()`, `empty_output` is set by each eval to the
emptiness of the returned (sealed) batch, and `clock_start(0)` clears both
flags. -/
theorem C4_fixedpoint_formula_and_flags {K V1 V2 T κ : Type} [LinearOrder K]
    [DecidableEq T] [DecidableEq κ]
    (ops : TimeOps T) (f : K → V1 → V2 → κ) (st : JTState T κ)
    (index : IZ K V1) (trace : TraceC K V2 T) (scope : Nat) :
    (fixedpointJT ops st scope = true ↔
      st.empty_input = true ∧ st.empty_output = true ∧
        ∀ p ∈ st.output_batchers,
          ops.lessEq p.1 (ops.epochEnd st.time scope) = false)
    ∧ (evalJT ops f st index trace).1.empty_input = index.isEmpty
    ∧ (evalJT ops f st index trace).1.empty_output
        = isEmptyBatch (evalJT ops f st index trace).2
    ∧ (clockStart st 0).empty_input = false
    ∧ (clockStart st 0).empty_output = false := by
  refine ⟨?_, rfl, rfl, rfl, rfl⟩
  simp only [fixedpointJT, List.all_eq_true, Bool.and_eq_true, Bool.not_eq_true']
  tauto

/-- Claim C5: at a clock boundary as scheduled by the circuit — i.e. in a
state where `fixedpoint(scope)` has returned true — no pending batcher's
time is `less_equal` the operator's current time, provided the lattice
order is transitive and the current time precedes its epoch end; hence the
`debug_assert!` in `clock_end` cannot fail. -/
theorem C5_clock_end_assert_from_fixedpoint {T κ : Type} [DecidableEq T]
    (ops : TimeOps T) (st : JTState T κ) (scope : Nat)
    (htrans : ∀ a b c, ops.lessEq a b = true → ops.lessEq b c = true →
      ops.lessEq a c = true)
    (hepoch : ops.lessEq st.time (ops.epochEnd st.time scope) = true)
    (hfix : fixedpointJT ops st scope = true) :
    clockEndAssert ops st = true := by
  rw [fixedpointJT] at hfix
  simp only [Bool.and_eq_true, List.all_eq_true, Bool.not_eq_true'] at hfix
  rw [clockEndAssert]
  simp only [List.all_eq_true, Bool.not_eq_true']
  intro p hp
  by_contra hc
  have hle : ops.lessEq p.1 st.time = true := by
    cases h : ops.lessEq p.1 st.time
    · exact absurd h hc
    · rfl
  have := htrans p.1 st.time (ops.epochEnd st.time scope) hle hepoch
  rw [hfix.2 p hp] at this
  cases this

theorem C5_witness :
    (∀ a b c : ℕ, natOps.lessEq a b = true → natOps.lessEq b c = true →
      natOps.lessEq a c = true) ∧
    natOps.lessEq (5 : ℕ) (natOps.epochEnd 5 0) = true ∧
    fixedpointJT natOps (⟨5, [(7, [(1, 1)])], true, true⟩ : JTState ℕ ℕ) 0 = true ∧
    clockEndAssert natOps (⟨5, [(7, [(1, 1)])], true, true⟩ : JTState ℕ ℕ) = true :=
  ⟨fun a b c hab hbc => by
      simp only [natOps, decide_eq_true_eq] at *
      omega,
    by decide, by decide,
    C5_clock_end_assert_from_fixedpoint natOps ⟨5, [(7, [(1, 1)])], true, true⟩ 0
      (fun a b c hab hbc => by
        simp only [natOps, decide_eq_true_eq] at *
        omega)
      (by decide) (by decide)⟩


/-- Claim C7: the `Map2` operator applies the pure user-provided function to
each pair of records of its two inputs, and its fixed-point test returns
true for every scope. -/
theorem C7_map2_eval_and_fixedpoint {A B C : Type} (m : Map2 A B C) (i1 : A) (i2 : B)
    (scope : Nat) :
    Map2.eval m i1 i2 = m.map i1 i2 ∧ Map2.atFixedpoint m scope = true :=
  ⟨rfl, rfl⟩

/-- Claim C10: `JoinTrace::clock_start(scope)` with `scope ≠ 0` leaves the
operator state unchanged, and `clock_start(0)` only clears the two flags
`empty_input` and `empty_output`, leaving `time` and `output_batchers`
unchanged. -/
theorem C10_clock_start_frame {T κ : Type} (st : JTState T κ) (scope : Nat)
    (h : scope ≠ 0) :
    clockStart st scope = st ∧
      clockStart st 0 = { st with empty_input := false, empty_output := false } :=
  ⟨by rw [clockStart, if_neg h], by rw [clockStart, if_pos rfl]⟩

section JoinTraceSplit

variable {K V1 V2 κ : Type} [LinearOrder K] [DecidableEq κ]


theorem joinTuples_nil_right [LinearOrder V1] [LinearOrder V2] (f : K → V1 → V2 → κ)
    (A : IZ K V1) : joinTuples f A ([] : IZ K V2) = [] := by
  cases A with
  | nil => rw [joinTuples]
  | cons p r => rw [joinTuples]

theorem sortedKeys_delayInteg {V : Type} [LinearOrder V] {s : ℕ → IZ K V}
    (hs : ∀ i, sortedKeys (s i)) (n : ℕ) : sortedKeys (delayInteg s n) := by
  cases n with
  | zero => exact List.Pairwise.nil
  | succ m => exact sortedKeys_integ hs m

theorem joinSpec_integ_right [LinearOrder V2] (f : K → V1 → V2 → κ) (A : IZ K V1)
    (b : ℕ → IZ K V2) (n : ℕ) (x : κ) :
    fromTuples (joinSpecTuples f A (integ b n)) x
      = sumUpTo (fun t2 => fromTuples (joinSpecTuples f A (b t2)) x) n := by
  induction n with
  | zero => rfl
  | succ m ih =>
    show fromTuples (joinSpecTuples f A (izPlus (integ b m) (b (m + 1)))) x = _
    rw [joinSpec_izPlus_right, ih]
    rfl

theorem joinSpec_integ_left [LinearOrder V1] (f : K → V1 → V2 → κ) (a : ℕ → IZ K V1)
    (B : IZ K V2) (n : ℕ) (x : κ) :
    fromTuples (joinSpecTuples f (integ a n) B) x
      = sumUpTo (fun t1 => fromTuples (joinSpecTuples f (a t1) B) x) n := by
  induction n with
  | zero => rfl
  | succ m ih =>
    show fromTuples (joinSpecTuples f (izPlus (integ a m) (a (m + 1))) B) x = _
    rw [joinSpec_izPlus_left, ih]
    rfl

theorem sumOut_congr {κ' : Type} {g h : ℕ → κ' → Int}
    (hgh : ∀ m x, g m x = h m x) (n : ℕ) (x : κ') : sumOut g n x = sumOut h n x := by
  induction n with
  | zero => exact hgh 0 x
  | succ m ih =>
    show sumOut g m x + g (m + 1) x = sumOut h m x + h (m + 1) x
    rw [ih, hgh]

end JoinTraceSplit


/-- Claim C6, counterexample: at the first tick the only contributing
timestamp pair is `(t1, t2) = (0, 0)`, which satisfies `t2 ≥ t1`, so the
claim routes it to the `right` operator (making right's output weight 1 and
left's 0 at tick 0).  In the implementation the trace of `b` read by `left`
already reflects the current tick while the delayed trace of `a` read by
`right` is still empty, so `left` emits the pair and `right` emits
nothing. -/
theorem C6_counterexample :
    leftOut caF caA caB 0 (10, 20) = 1 ∧ rightOut caF caA caB 0 (10, 20) = 0 := by
  constructor
  · show fromTuples (joinTuples caF (caA 0) (integ caB 0)) (10, 20) = 1
    have h : joinTuples caF [(1, [(10, 1)])] [(1, [(20, 1)])] = [((10, 20), 1)] := by
      simp [joinTuples, crossVals, seekKey, caF]
    show fromTuples (joinTuples caF [(1, [(10, 1)])] [(1, [(20, 1)])]) (10, 20) = 1
    rw [h]
    decide
  · show fromTuples (joinTuples (fun k v2 v1 => caF k v1 v2) (caB 0)
      (delayInteg caA 0)) (10, 20) = 0
    rw [show delayInteg caA 0 = [] from rfl, joinTuples_nil_right]
    rfl

/-- Claim C6 as amended: `join_trace` is the sum of the two `JoinTrace`
operators `left` (stream `a` against the trace of `b`) and `right` (stream
`b` against the one-tick-delayed trace of `a`, join function flipped); the
split partitions the contributing timestamp pairs by observation order with
`t2 ≤ t1` going to `left` (first conjunct) and `t2 > t1` going to `right`
(second conjunct), and the cumulative sum of `left + right` equals the
integrated nested incremental join (third conjunct). -/
theorem C6_join_trace_split_amended {K V1 V2 κ : Type} [LinearOrder K] [LinearOrder V1]
    [LinearOrder V2] [DecidableEq κ] (f : K → V1 → V2 → κ)
    (a : ℕ → IZ K V1) (b : ℕ → IZ K V2)
    (ha : ∀ i, sortedKeys (a i)) (hb : ∀ i, sortedKeys (b i)) (n : ℕ) (x : κ) :
    leftOut f a b n x
        = sumUpTo (fun t2 => fromTuples (joinSpecTuples f (a n) (b t2)) x) n
    ∧ rightOut f a b n x
        = (match n with
           | 0 => 0
           | m + 1 =>
             sumUpTo (fun t1 => fromTuples (joinSpecTuples f (a t1) (b (m + 1))) x) m)
    ∧ sumOut (fun m x => leftOut f a b m x + rightOut f a b m x) n x
        = joinOutput f (integ a n) (integ b n) x := by
  refine ⟨?_, ?_, ?_⟩
  · show fromTuples (joinTuples f (a n) (integ b n)) x = _
    rw [joinTuples_weight f _ _ (ha n) (sortedKeys_integ hb n) x, joinSpec_integ_right]
  · cases n with
    | zero =>
      show fromTuples (joinTuples (fun k v2 v1 => f k v1 v2) (b 0)
        (delayInteg a 0)) x = 0
      rw [show delayInteg a 0 = [] from rfl, joinTuples_nil_right]
      rfl
    | succ m =>
      show fromTuples (joinTuples (fun k v2 v1 => f k v1 v2) (b (m + 1))
        (integ a m)) x = _
      rw [joinTuples_weight _ _ _ (hb (m + 1)) (sortedKeys_integ ha m) x]
      have hswap := joinSpec_swap f (integ a m) (b (m + 1)) x
      rw [← hswap, joinSpec_integ_left]
  · have hpt : ∀ m x', leftOut f a b m x' + rightOut f a b m x'
        = joinIncOut f a b m x' := by
      intro m x'
      rw [joinIncOut, leftOut, rightOut]
      have hflip : joinOutput (fun k v2 v1 => f k v1 v2) (b m) (delayInteg a m) x'
          = joinOutput f (delayInteg a m) (b m) x' := by
        rw [joinOutput, joinOutput,
          joinTuples_weight _ _ _ (hb m) (sortedKeys_delayInteg ha m) x',
          joinTuples_weight f _ _ (sortedKeys_delayInteg ha m) (hb m) x',
          joinSpec_swap f]
      rw [hflip]
      ring
    rw [sumOut_congr hpt, sum_incremental_eq f a b ha hb n x]

theorem C6_amended_witness :
    (∀ i, sortedKeys (caA i)) ∧ (∀ i, sortedKeys (caB i)) ∧
    (leftOut caF caA caB 1 (10, 20)
        = sumUpTo (fun t2 => fromTuples (joinSpecTuples caF (caA 1) (caB t2)) (10, 20)) 1
      ∧ rightOut caF caA caB 1 (10, 20)
        = sumUpTo (fun t1 => fromTuples (joinSpecTuples caF (caA t1) (caB 1)) (10, 20)) 0
      ∧ sumOut (fun m x => leftOut caF caA caB m x + rightOut caF caA caB m x) 1 (10, 20)
        = joinOutput caF (integ caA 1) (integ caB 1) (10, 20)) :=
  ⟨fun i => by cases i <;> simp [caA, sortedKeys],
    fun i => by cases i <;> simp [caB, sortedKeys],
    C6_join_trace_split_amended caF caA caB
      (fun i => by cases i <;> simp [caA, sortedKeys])
      (fun i => by cases i <;> simp [caB, sortedKeys]) 1 (10, 20)⟩

theorem C10_witness :
    (1 : Nat) ≠ 0 ∧
    clockStart (⟨3, [(4, [(1, 1)])], true, false⟩ : JTState ℕ ℕ) 1
        = (⟨3, [(4, [(1, 1)])], true, false⟩ : JTState ℕ ℕ) ∧
      clockStart (⟨3, [(4, [(1, 1)])], true, false⟩ : JTState ℕ ℕ) 0
        = (⟨3, [(4, [(1, 1)])], false, false⟩ : JTState ℕ ℕ) :=
  ⟨by decide, C10_clock_start_frame ⟨3, [(4, [(1, 1)])], true, false⟩ 1 (by decide)⟩

end DBSP
